import Mathlib

/-!
Verification development for `tex2imgs.py`: a shallow embedding of the
equation-extraction and filtering core of the script, together with theorems
settling the specification claims about it.

Modelling conventions:
* Python strings are modelled as `String` / `List Char`.
* Each regular expression of the source is modelled by an executable scanner
  over `List Char` that reproduces the regex engine's behaviour (leftmost
  match, non-greedy repetition as shortest-first search, alternation in
  written order, `re.findall` continuing after each match end and advancing
  one character after each failed position).
* Character classes `\s` and `\d` are modelled by their ASCII meaning, which
  is what all inputs of this repository exercise.
* Drivers that jump over a match are written with an explicit fuel argument
  (always called with the length of the remaining text, which is an upper
  bound on the number of scan steps), so all definitions compute by `decide`.
* `list(set(xs))` is modelled by `List.dedup` (the order of a Python `set` is
  unspecified; all claims below are stated order-insensitively).
* Filesystem and process side effects of `process_tex_file` are out of scope;
  its pure data flow (which equation text, which preamble text and which
  output path are handed to the rendering collaborator, and the returned
  preamble string) is modelled by `process_tex_file` returning that data.
-/

set_option maxRecDepth 10000

/-! ## Basic character and list helpers -/

/-- ASCII whitespace, modelling Python's `\s` and `str.strip` on the ASCII
inputs this script works with. -/
def isSpaceChar (c : Char) : Bool :=
  c == ' ' || c == '\t' || c == '\n' || c == '\r' || c == '\x0b' || c == '\x0c'

/-- ASCII decimal digit or decimal point, modelling the regex class `[\d.]`. -/
def isDigitDotChar (c : Char) : Bool :=
  c == '0' || c == '1' || c == '2' || c == '3' || c == '4' || c == '5' ||
  c == '6' || c == '7' || c == '8' || c == '9' || c == '.'

/-- The regex class `[a-zA-Z+\-*/=<>\\]` of `_is_purely_numeric_content`:
letters, arithmetic/relational operators, and the command-start backslash. -/
def isOpLetterChar (c : Char) : Bool :=
  ('a' ≤ c && c ≤ 'z') || ('A' ≤ c && c ≤ 'Z') ||
  c == '+' || c == '-' || c == '*' || c == '/' || c == '=' || c == '<' ||
  c == '>' || c == '\\'

/-- Drop a literal prefix: `dropPrefixCh p l = some r` iff `l = p ++ r`. -/
def dropPrefixCh : List Char → List Char → Option (List Char)
  | [], l => some l
  | _ :: _, [] => none
  | p :: ps, c :: cs => if p = c then dropPrefixCh ps cs else none

/-- Remove trailing ASCII whitespace (the right half of Python `str.strip`). -/
def trimRight : List Char → List Char
  | [] => []
  | c :: rest =>
    match trimRight rest with
    | [] => if isSpaceChar c then [] else [c]
    | r => c :: r

/-- Python `str.strip()`: remove leading and trailing whitespace. -/
def pyStrip (l : List Char) : List Char :=
  trimRight (l.dropWhile isSpaceChar)

/-- Python `str.split('\n')`. -/
def splitLines : List Char → List (List Char)
  | [] => [[]]
  | c :: rest =>
    if c = '\n' then [] :: splitLines rest
    else
      match splitLines rest with
      | [] => [[c]]
      | h :: t => (c :: h) :: t

/-! ## Literal fragments of the source's regexes -/

def usepackageLit : List Char := ['\\', 'u', 's', 'e', 'p', 'a', 'c', 'k', 'a', 'g', 'e']
def renewcommandLit : List Char := ['\\', 'r', 'e', 'n', 'e', 'w', 'c', 'o', 'm', 'm', 'a', 'n', 'd']
def newcommandLit : List Char := ['\\', 'n', 'e', 'w', 'c', 'o', 'm', 'm', 'a', 'n', 'd']
def beginLit : List Char := ['\\', 'b', 'e', 'g', 'i', 'n', '\x7b']
def endLit : List Char := ['\\', 'e', 'n', 'd', '\x7b']
def labelLit : List Char := ['\\', 'l', 'a', 'b', 'e', 'l', '\x7b']
def mathbfLit : List Char := ['\\', 'm', 'a', 't', 'h', 'b', 'f', '\x7b']

/-- The environment alternation of `extract_latex_equations`, in the regex's
written order: `equation|align|gather|multline|flalign|alignat|split|cases`. -/
def envNames : List (List Char) :=
  [['e', 'q', 'u', 'a', 't', 'i', 'o', 'n'],
   ['a', 'l', 'i', 'g', 'n'],
   ['g', 'a', 't', 'h', 'e', 'r'],
   ['m', 'u', 'l', 't', 'l', 'i', 'n', 'e'],
   ['f', 'l', 'a', 'l', 'i', 'g', 'n'],
   ['a', 'l', 'i', 'g', 'n', 'a', 't'],
   ['s', 'p', 'l', 'i', 't'],
   ['c', 'a', 's', 'e', 's']]

/-- The environment alternation of `post_process_equation` (the numbered
environments only): `equation|align|gather|multline|flalign|alignat`. -/
def numberedEnvNames : List (List Char) :=
  [['e', 'q', 'u', 'a', 't', 'i', 'o', 'n'],
   ['a', 'l', 'i', 'g', 'n'],
   ['g', 'a', 't', 'h', 'e', 'r'],
   ['m', 'u', 'l', 't', 'l', 'i', 'n', 'e'],
   ['f', 'l', 'a', 'l', 'i', 'g', 'n'],
   ['a', 'l', 'i', 'g', 'n', 'a', 't']]

/-! ## extract_preamble (source lines 7-39)

The combined pattern
`\\usepackage(\[.*?\])?\{.*?\}|\\renewcommand\{.*?\}\{.*?\}|\\newcommand(\[.*?\])?\{.*?\}\{.*?\}`
with `re.DOTALL`, scanned with `findall`; every match is stripped and the
result deduplicated through `set`. -/

/-- Split off the content up to the first `}` (the non-greedy `.*?\}` with
DOTALL): `takeToBrace l = some (a, r)` with `l = a ++ '}' :: r`, `'}' ∉ a`. -/
def takeToBrace : List Char → Option (List Char × List Char)
  | [] => none
  | c :: rest =>
    if c = '\x7d' then some ([], rest)
    else (takeToBrace rest).map (fun p => (c :: p.1, p.2))

/-- One braced group `\{.*?\}` (non-greedy, DOTALL): returns the matched
segment including its braces, and the remainder. -/
def bracedExpr : List Char → Option (List Char × List Char)
  | [] => none
  | c :: rest =>
    if c = '\x7b' then
      (takeToBrace rest).map (fun p => ('\x7b' :: p.1 ++ ['\x7d'], p.2))
    else none

/-- Backtracking search for the closing `]` of `\[.*?\]` followed by a
continuation parser `k` (the regex tries each candidate `]` left to right and
extends the non-greedy `.*?` past a `]` whose continuation fails). Returns
(option-list content, continuation segment, remainder). -/
def bracketScanK (k : List Char → Option (List Char × List Char)) :
    List Char → Option (List Char × List Char × List Char)
  | [] => none
  | c :: rest =>
    if c = ']' then
      match k rest with
      | some (b, r2) => some ([], b, r2)
      | none => (bracketScanK k rest).map (fun t => (']' :: t.1, t.2.1, t.2.2))
    else
      (bracketScanK k rest).map (fun t => (c :: t.1, t.2.1, t.2.2))

/-- Backtracking search for the `}` closing the first of two braced groups
`\{.*?\}\{.*?\}`: each candidate `}` must be followed by a full second braced
group, otherwise the first `.*?` extends past it. Returns (first-group
content, second-group segment, remainder). -/
def firstArgScan : List Char → Option (List Char × List Char × List Char)
  | [] => none
  | c :: rest =>
    if c = '\x7d' then
      match bracedExpr rest with
      | some (b, r2) => some ([], b, r2)
      | none => (firstArgScan rest).map (fun t => ('\x7d' :: t.1, t.2.1, t.2.2))
    else
      (firstArgScan rest).map (fun t => (c :: t.1, t.2.1, t.2.2))

/-- Two braced groups `\{.*?\}\{.*?\}`: returns the matched segment
(both groups, braces included) and the remainder. -/
def twoBraced : List Char → Option (List Char × List Char)
  | [] => none
  | c :: rest =>
    if c = '\x7b' then
      (firstArgScan rest).map
        (fun t => ('\x7b' :: t.1 ++ '\x7d' :: t.2.1, t.2.2))
    else none

/-- Argument part of the `\usepackage` branch: `(\[.*?\])?\{.*?\}`. If the
text starts with `[`, only the bracket-group alternative can apply (the
group-absent alternative would have to match `\{` against `[`). -/
def afterUsepackage (l : List Char) : Option (List Char × List Char) :=
  if l.head? = some '[' then
    (bracketScanK bracedExpr l.tail).map
      (fun t => ('[' :: t.1 ++ ']' :: t.2.1, t.2.2))
  else bracedExpr l

/-- Argument part of the `\newcommand` branch: `(\[.*?\])?\{.*?\}\{.*?\}`. -/
def afterNewcommand (l : List Char) : Option (List Char × List Char) :=
  if l.head? = some '[' then
    (bracketScanK twoBraced l.tail).map
      (fun t => ('[' :: t.1 ++ ']' :: t.2.1, t.2.2))
  else twoBraced l

/-- Try the preamble alternation at the current position, in the regex's
written order. Returns the full matched span and the remainder. -/
def tryPreambleMatch (l : List Char) : Option (List Char × List Char) :=
  match dropPrefixCh usepackageLit l with
  | some r => (afterUsepackage r).map (fun p => (usepackageLit ++ p.1, p.2))
  | none =>
    match dropPrefixCh renewcommandLit l with
    | some r => (twoBraced r).map (fun p => (renewcommandLit ++ p.1, p.2))
    | none =>
      match dropPrefixCh newcommandLit l with
      | some r => (afterNewcommand r).map (fun p => (newcommandLit ++ p.1, p.2))
      | none => none

/-- The `re.findall` driver for the preamble pattern: try a match at every
position, continue after the end of each match. The fuel argument is always
called with the text length, a bound on the number of scan steps. -/
def preambleScanF : Nat → List Char → List (List Char)
  | 0, _ => []
  | _ + 1, [] => []
  | fuel + 1, c :: rest =>
    match tryPreambleMatch (c :: rest) with
    | some (m, r) => m :: preambleScanF fuel r
    | none => preambleScanF fuel rest

/-- Source `extract_preamble` (source lines 7-39): findall, strip each match,
deduplicate through `set`. -/
def extract_preamble (latex_string : String) : List String :=
  let ms := preambleScanF latex_string.data.length latex_string.data
  let preamble_statements := ms.map (fun m => (⟨pyStrip m⟩ : String))
  preamble_statements.dedup

/-! ## _is_purely_numeric_content (source lines 41-72) -/

/-- Cleaning step `re.sub(r'[\s&\]]', '', content)`: remove whitespace, `&` and `]`. -/
def cleanContent (l : List Char) : List Char :=
  l.filter (fun c => !(isSpaceChar c || c == '&' || c == ']'))

/-- Test `re.fullmatch(r'\\mathbf\{[\d.]+\}', cleaned)`: the whole string is
`\mathbf{` followed by one or more digits/dots and a closing brace. -/
def isMathbfNumeric (l : List Char) : Bool :=
  match dropPrefixCh mathbfLit l with
  | some r =>
    match r.getLast? with
    | some '\x7d' => !r.dropLast.isEmpty && r.dropLast.all isDigitDotChar
    | _ => false
  | none => false

/-- Source `_is_purely_numeric_content` (source lines 41-72). -/
def is_purely_numeric_content (content : String) : Bool :=
  let cleaned_content := cleanContent content.data
  if cleaned_content.isEmpty then false
  else if cleaned_content.any isOpLetterChar then false
  else if cleaned_content.all isDigitDotChar then true
  else if isMathbfNumeric cleaned_content then true
  else false

/-! ## _is_commented_out (source lines 75-96) -/

/-- Source `_is_commented_out`: every line, once stripped, is empty or starts with
`%`. -/
def is_commented_out (content : String) : Bool :=
  (splitLines content.data).all (fun line =>
    let stripped_line := pyStrip line
    stripped_line.isEmpty || stripped_line.head? == some '%')

/-! ## extract_latex_equations (source lines 99-157) -/

/-- Match the environment-name alternation followed by an optional `*` and
the closing `}` (regex `(equation|...|cases)\*?\}`), alternatives in written
order, the greedy `\*?` trying the starred form first. Returns the
environment name, whether it was starred, and the remainder. -/
def firstEnvStar : List (List Char) → List Char → Option (List Char × Bool × List Char)
  | [], _ => none
  | e :: es, l =>
    match dropPrefixCh (e ++ ['*', '\x7d']) l with
    | some r => some (e, true, r)
    | none =>
      match dropPrefixCh (e ++ ['\x7d']) l with
      | some r => some (e, false, r)
      | none => firstEnvStar es l

/-- Recognize `\end{e}` or `\end{e*}` (the backreference `\\end\{\2\*?\}`) at
the head of the text; returns whether the end marker was starred, and the
remainder. -/
def dropEndTok (e : List Char) (l : List Char) : Option (Bool × List Char) :=
  match dropPrefixCh (endLit ++ e ++ ['*', '\x7d']) l with
  | some r => some (true, r)
  | none =>
    match dropPrefixCh (endLit ++ e ++ ['\x7d']) l with
    | some r => some (false, r)
    | none => none

/-- Non-greedy `(.*?)\\end\{\2\*?\}` with DOTALL: the inner content runs to
the first matching end marker. Returns (inner content, end star, remainder). -/
def findEndSeg (e : List Char) : List Char → Option (List Char × Bool × List Char)
  | [] => none
  | c :: rest =>
    match dropEndTok e (c :: rest) with
    | some (st, r) => some ([], st, r)
    | none => (findEndSeg e rest).map (fun t => (c :: t.1, t.2.1, t.2.2))

/-- Try the block-environment pattern (source line 129) at the current
position; returns ((full match, inner content), remainder). -/
def tryBlockMatch (l : List Char) : Option ((List Char × List Char) × List Char) :=
  match dropPrefixCh beginLit l with
  | none => none
  | some l2 =>
    match firstEnvStar envNames l2 with
    | none => none
    | some (e, st1, l3) =>
      match findEndSeg e l3 with
      | none => none
      | some (inner, st2, rest) =>
        some ((beginLit ++ e ++ (if st1 then ['*'] else []) ++ ['\x7d'] ++ inner
                ++ endLit ++ e ++ (if st2 then ['*'] else []) ++ ['\x7d'], inner),
              rest)

/-- findall driver for the block-environment pattern. -/
def blockScanF : Nat → List Char → List (List Char × List Char)
  | 0, _ => []
  | _ + 1, [] => []
  | fuel + 1, c :: rest =>
    match tryBlockMatch (c :: rest) with
    | some (m, r) => m :: blockScanF fuel r
    | none => blockScanF fuel rest

/-- Non-greedy `([\s\S]*?)\$\$`: content up to the first `$$`. -/
def findDD : List Char → Option (List Char × List Char)
  | [] => none
  | c :: rest =>
    if c = '$' ∧ rest.head? = some '$' then some ([], rest.tail)
    else (findDD rest).map (fun p => (c :: p.1, p.2))

/-- Try the display pattern `(\$\$([\s\S]*?)\$\$)` at the current position. -/
def tryDisplayMatch (l : List Char) : Option ((List Char × List Char) × List Char) :=
  match l with
  | c1 :: c2 :: rest =>
    if c1 = '$' ∧ c2 = '$' then
      (findDD rest).map (fun p => (('$' :: '$' :: (p.1 ++ ['$', '$']), p.1), p.2))
    else none
  | _ => none

/-- findall driver for the display pattern. -/
def displayScanF : Nat → List Char → List (List Char × List Char)
  | 0, _ => []
  | _ + 1, [] => []
  | fuel + 1, c :: rest =>
    match tryDisplayMatch (c :: rest) with
    | some (m, r) => m :: displayScanF fuel r
    | none => displayScanF fuel rest

/-- Body of the inline pattern after an eligible opening `$`: the content is
`[^\$]+?` (non-empty, no `$`), the closing `$` must not be followed by
another `$` (the lookahead `(?!\$)`). Returns (inner content, remainder after
the closing `$`). -/
def takeInline (rest : List Char) : Option (List Char × List Char) :=
  let inner := rest.takeWhile (fun c => c != '$')
  match rest.dropWhile (fun c => c != '$') with
  | [] => none
  | _ :: rest2 =>
    if inner.isEmpty then none
    else if rest2.head? = some '$' then none
    else some (inner, rest2)

/-- findall driver for the inline pattern `((?<!\$)\$([^\$]+?)\$(?!\$))`.
`prev` is the character before the current position (for the lookbehind
`(?<!\$)`). -/
def inlineScanF : Nat → Option Char → List Char → List (List Char × List Char)
  | 0, _, _ => []
  | _ + 1, _, [] => []
  | fuel + 1, prev, c :: rest =>
    if c = '$' ∧ prev ≠ some '$' then
      match takeInline rest with
      | some (inner, rest2) =>
        ('$' :: inner ++ ['$'], inner) :: inlineScanF fuel (some '$') rest2
      | none => inlineScanF fuel (some c) rest
    else inlineScanF fuel (some c) rest

/-- The per-category filtering loop of `extract_latex_equations`: keep a
match when neither content filter fires, appending the stripped full match. -/
def filteredCands (ms : List (List Char × List Char)) : List String :=
  ms.filterMap (fun m =>
    if is_purely_numeric_content ⟨m.2⟩ then none
    else if is_commented_out ⟨m.2⟩ then none
    else some (⟨pyStrip m.1⟩ : String))

/-- Source `extract_latex_equations` (source lines 99-157). -/
def extract_latex_equations (latex_string : String)
    (equation_types : Option (List String)) : List String :=
  let equation_types := equation_types.getD ["all"]
  let extract_all := equation_types.contains "all"
  let extract_block := extract_all || equation_types.contains "block"
  let extract_display := extract_all || equation_types.contains "display"
  let extract_inline := extract_all || equation_types.contains "inline"
  let l := latex_string.data
  let equations :=
    (if extract_block then filteredCands (blockScanF l.length l) else [])
    ++ (if extract_display then filteredCands (displayScanF l.length l) else [])
    ++ (if extract_inline then filteredCands (inlineScanF l.length none l) else [])
  equations.dedup

/-! ## post_process_equation (source lines 177-189) -/

/-- Match one of the numbered environment names followed directly by `}`
(the alternation of `post_process_equation`'s patterns, no star allowed),
alternatives in written order. -/
def firstNumberedEnv : List (List Char) → List Char → Option (List Char × List Char)
  | [], _ => none
  | e :: es, r =>
    match dropPrefixCh (e ++ ['\x7d']) r with
    | some rest => some (e, rest)
    | none => firstNumberedEnv es r

/-- Try `\\kw\{(equation|...|alignat)\}` (kw is `begin` or `end`) at the head
of `l` against the numbered environments, in written order. Returns the
environment name and the remainder. -/
def tryNumberedMarker (kw : List Char) (l : List Char) :
    Option (List Char × List Char) :=
  match dropPrefixCh ('\\' :: kw ++ ['\x7b']) l with
  | none => none
  | some r => firstNumberedEnv numberedEnvNames r

/-- The `re.sub` driver for one unnumbering pass: replace each occurrence of
`\kw{env}` by `\kw{env*}`, scanning left to right and continuing after each
replacement. -/
def subMarkerF (kw : List Char) : Nat → List Char → List Char
  | 0, l => l
  | _ + 1, [] => []
  | fuel + 1, c :: rest =>
    match tryNumberedMarker kw (c :: rest) with
    | some (e, r) =>
      '\\' :: kw ++ '\x7b' :: (e ++ '*' :: '\x7d' :: subMarkerF kw fuel r)
    | none => c :: subMarkerF kw fuel rest

def beginKw : List Char := ['b', 'e', 'g', 'i', 'n']
def endKw : List Char := ['e', 'n', 'd']

/-- Source `post_process_equation` (source lines 177-189): unnumber the begin
markers, then the end markers. -/
def post_process_equation (equation : String) : String :=
  let e1 := subMarkerF beginKw equation.data.length equation.data
  ⟨subMarkerF endKw e1.length e1⟩

/-! ## get_equation_label (source lines 191-204) -/

/-- The group of `\\label\{(.*?)\}` without DOTALL: content up to the first
`}`, failing on a newline (`.` does not match `\n`). -/
def takeUntilBrace : List Char → Option (List Char)
  | [] => none
  | c :: rest =>
    if c = '\x7d' then some []
    else if c = '\n' then none
    else (takeUntilBrace rest).map (c :: ·)

/-- Search `re.search(r'\\label\{(.*?)\}', l)`: the group of the leftmost match. -/
def findLabel : List Char → Option (List Char)
  | [] => none
  | c :: rest =>
    match dropPrefixCh labelLit (c :: rest) with
    | some r =>
      match takeUntilBrace r with
      | some mid => some mid
      | none => findLabel rest
    | none => findLabel rest

/-- Source `get_equation_label` (source lines 191-204): the label identifier with
`:` replaced by `_`, or `none` when no label construct is present. -/
def get_equation_label (equation : String) : Option String :=
  (findLabel equation.data).map
    (fun mid => (⟨mid.map (fun c => if c = ':' then '_' else c)⟩ : String))

/-! ## process_tex_file (source lines 206-238), pure data flow -/

/-- One hand-off to the external rendering collaborator: the post-processed
equation text, the preamble text given to `make_tex_file`, the density used
for rasterization, and the output image path. -/
structure RenderCall where
  texEquation : String
  usedPreamble : String
  density : Nat
  outputPath : String
deriving DecidableEq

/-- Pure data flow of `process_tex_file` (source lines 206-238): file
contents instead of a path, and the list of rendering hand-offs instead of
the side effects. Mirrors the source: the `preamble` parameter is shadowed
by the file's own extracted preamble before any use; the output path uses
the label when it is truthy (non-`None` and non-empty), else the 1-based
position. Returns (returned preamble string, render calls). -/
def process_tex_file (latex_document : String) (output_dir : String)
    (preamble : String) (density : Nat)
    (equation_types : Option (List String)) : String × List RenderCall :=
  let extracted_equations := extract_latex_equations latex_document equation_types
  let preamble_statements := extract_preamble latex_document
  let preamble := String.intercalate "\n" preamble_statements
  let calls := extracted_equations.enum.map (fun p =>
    let i := p.1
    let eq := post_process_equation p.2
    let label := get_equation_label eq
    let output_path :=
      match label with
      | some lab =>
        if lab.isEmpty then output_dir ++ "/equation_" ++ toString (i + 1) ++ ".png"
        else output_dir ++ "/equation_" ++ lab ++ ".png"
      | none => output_dir ++ "/equation_" ++ toString (i + 1) ++ ".png"
    { texEquation := eq, usedPreamble := preamble, density := density,
      outputPath := output_path })
  (preamble, calls)

/-! ## Statement-side definitions used by the claim theorems -/

/-- The last character of `pre`, or `prev` when `pre` is empty: the character
immediately preceding a position in `prev ++ pre`-shaped context. Used to
state the inline lookbehind property. -/
def lastOr (prev : Option Char) : List Char → Option Char
  | [] => prev
  | c :: rest => lastOr (some c) rest

/-- An argument text free of brackets and braces (the "syntactically-simple"
side condition of the preamble-extraction property). -/
def BracketFree (l : List Char) : Prop :=
  '\x7b' ∉ l ∧ '\x7d' ∉ l ∧ '[' ∉ l ∧ ']' ∉ l

/-- A syntactically-simple (bracket-free-argument) preamble statement of one
of the three recognized shapes: `\usepackage{p}`, `\usepackage[o]{p}`,
`\renewcommand{a}{b}`, `\newcommand{a}{b}`, `\newcommand[n]{a}{b}`. -/
def SimpleStmt (m : List Char) : Prop :=
  (∃ pkg, BracketFree pkg ∧ m = usepackageLit ++ '\x7b' :: pkg ++ ['\x7d']) ∨
  (∃ opts pkg, BracketFree opts ∧ BracketFree pkg ∧
    m = usepackageLit ++ '[' :: opts ++ ']' :: '\x7b' :: pkg ++ ['\x7d']) ∨
  (∃ a b, BracketFree a ∧ BracketFree b ∧
    m = renewcommandLit ++ '\x7b' :: a ++ '\x7d' :: '\x7b' :: b ++ ['\x7d']) ∨
  (∃ a b, BracketFree a ∧ BracketFree b ∧
    m = newcommandLit ++ '\x7b' :: a ++ '\x7d' :: '\x7b' :: b ++ ['\x7d']) ∨
  (∃ n a b, BracketFree n ∧ BracketFree a ∧ BracketFree b ∧
    m = newcommandLit ++ '[' :: n ++ ']' :: '\x7b' :: a ++ '\x7d' :: '\x7b' :: b ++ ['\x7d'])

/-- A document shaped as gap, statement, gap, statement, ..., gap:
`mkPreambleDoc g0 [(m1, g1), (m2, g2)] = g0 ++ m1 ++ g1 ++ m2 ++ g2`. -/
def mkPreambleDoc : List Char → List (List Char × List Char) → List Char
  | g0, [] => g0
  | g0, (m, g) :: ps => g0 ++ m ++ mkPreambleDoc g ps

/-! ## Helper lemmas: prefixes, stripping -/

lemma dropPrefixCh_some : ∀ {p l r : List Char}, dropPrefixCh p l = some r → l = p ++ r := by
  intro p
  induction p with
  | nil => intro l r h; simpa [dropPrefixCh] using h
  | cons a ps ih =>
    intro l r h
    cases l with
    | nil => simp [dropPrefixCh] at h
    | cons c cs =>
      by_cases hac : a = c
      · subst hac
        simp only [dropPrefixCh, if_pos rfl] at h
        simp [ih h]
      · simp [dropPrefixCh, hac] at h

lemma dropPrefixCh_append (p r : List Char) : dropPrefixCh p (p ++ r) = some r := by
  induction p with
  | nil => simp [dropPrefixCh]
  | cons a ps ih => simp [dropPrefixCh, ih]

lemma trimRight_cons (c : Char) (l : List Char) :
    trimRight (c :: l) =
      match trimRight l with
      | [] => if isSpaceChar c then [] else [c]
      | r => c :: r := rfl

lemma trimRight_head {c : Char} (l : List Char) (h : isSpaceChar c = false) :
    (trimRight (c :: l)).head? = some c := by
  rw [trimRight_cons]
  cases htr : trimRight l with
  | nil => simp [h]
  | cons x xs => simp

lemma trimRight_eq_self : ∀ {l : List Char} {d : Char},
    l.getLast? = some d → isSpaceChar d = false → trimRight l = l := by
  intro l
  induction l with
  | nil => intro d h _; simp at h
  | cons c rest ih =>
    intro d h hd
    cases rest with
    | nil =>
      simp only [List.getLast?_singleton, Option.some.injEq] at h
      subst h
      simp [trimRight_cons, trimRight, hd]
    | cons c2 t =>
      rw [List.getLast?_cons_cons] at h
      rw [trimRight_cons, ih h hd]

lemma pyStrip_eq_self {l : List Char} {c d : Char} (hh : l.head? = some c)
    (hc : isSpaceChar c = false) (hl : l.getLast? = some d)
    (hd : isSpaceChar d = false) : pyStrip l = l := by
  cases l with
  | nil => simp at hh
  | cons a t =>
    obtain rfl : a = c := by simpa using hh
    unfold pyStrip
    rw [List.dropWhile_cons_of_neg (by simp [hc])]
    exact trimRight_eq_self hl hd

/-! ## C1 and C3: the purely-numeric filter -/

lemma digitdot_not_op {c : Char} (h : isDigitDotChar c = true) :
    isOpLetterChar c = false := by
  unfold isDigitDotChar at h
  simp only [Bool.or_eq_true, beq_iff_eq] at h
  rcases h with ((((((((((h | h) | h) | h) | h) | h) | h) | h) | h) | h) | h) <;>
    subst h <;> decide

lemma isMathbfNumeric_backslash {l : List Char} (h : isMathbfNumeric l = true) :
    '\\' ∈ l := by
  unfold isMathbfNumeric at h
  cases hd : dropPrefixCh mathbfLit l with
  | none => rw [hd] at h; simp at h
  | some r =>
    rw [dropPrefixCh_some hd]
    exact List.mem_append_left _ (by decide)

/-- C1, amended: the filter returns true iff the cleaned content is
non-empty and consists only of digits and decimal points. The bolded-numeric
branch of the source is unreachable: any `\mathbf{...}` survives cleaning
with its letters and backslash intact and is rejected by the earlier
non-numeric-character check, so `\mathbf{3.14}` is kept, not filtered. -/
theorem c1_amended (content : String) :
    is_purely_numeric_content content = true ↔
      (cleanContent content.data ≠ [] ∧
        (cleanContent content.data).all isDigitDotChar = true) := by
  simp only [is_purely_numeric_content]
  split_ifs with h0 h1 h2 h3
  · simp only [false_iff]
    rintro ⟨hne, -⟩
    exact hne (List.isEmpty_iff.mp h0)
  · simp only [false_iff]
    rintro ⟨-, hall⟩
    obtain ⟨c, hc, hop⟩ := List.any_eq_true.mp h1
    have := List.all_eq_true.mp hall c hc
    simp [digitdot_not_op this] at hop
  · simp only [true_iff]
    refine ⟨fun hnil => h0 ?_, h2⟩
    simp [hnil]
  · exact absurd (List.any_eq_true.mpr
      ⟨'\\', isMathbfNumeric_backslash h3, by decide⟩) h1
  · simp only [false_iff]
    rintro ⟨-, hall⟩
    exact h2 hall

/-- C1 counterexample: on `\mathbf{3.14}` the filter returns false (the
candidate is kept), although the content is exactly a recognized bolded
numeric literal, contradicting the claimed characterization. -/
theorem c1_counterexample :
    is_purely_numeric_content "\\mathbf\x7b3.14\x7d" = false ∧
    isMathbfNumeric (cleanContent "\\mathbf\x7b3.14\x7d".data) = true := by
  constructor <;> decide

/-- C3: the purely-numeric filter accepts `3.14` (filtered out), rejects
`x = 3.14` (kept), and any content whose cleaned form is empty is not
purely numeric (kept). -/
theorem c3_numeric_filter_examples :
    is_purely_numeric_content "3.14" = true ∧
    is_purely_numeric_content "x = 3.14" = false ∧
    ∀ content : String, cleanContent content.data = [] →
      is_purely_numeric_content content = false := by
  refine ⟨by decide, by decide, ?_⟩
  intro content h
  unfold is_purely_numeric_content
  simp [h]

/-- C3 witness: the third part of `c3_numeric_filter_examples` applied to a
concrete content that cleans to empty. -/
theorem c3_numeric_filter_examples_witness :
    cleanContent " &]".data = [] ∧ is_purely_numeric_content " &]" = false :=
  ⟨by decide, c3_numeric_filter_examples.2.2 " &]" (by decide)⟩

/-! ## C4: the fully-commented filter -/

lemma dropWhile_head_false {p : Char → Bool} :
    ∀ {l : List Char} {c : Char} {r : List Char},
      l.dropWhile p = c :: r → p c = false := by
  intro l
  induction l with
  | nil => intro c r h; simp at h
  | cons a t ih =>
    intro c r h
    by_cases hp : p a
    · rw [List.dropWhile_cons_of_pos hp] at h
      exact ih h
    · rw [List.dropWhile_cons_of_neg hp] at h
      injection h with h1 _
      subst h1
      exact Bool.eq_false_iff.mpr hp

lemma commented_line_iff (line : List Char) :
    ((pyStrip line).isEmpty || ((pyStrip line).head? == some '%')) = true ↔
      (line.all isSpaceChar = true ∨
        (line.dropWhile isSpaceChar).head? = some '%') := by
  unfold pyStrip
  cases hd : line.dropWhile isSpaceChar with
  | nil =>
    have hall : line.all isSpaceChar = true :=
      List.all_eq_true.mpr (List.dropWhile_eq_nil_iff.mp hd)
    simp [trimRight, hall]
  | cons c r =>
    have hc : isSpaceChar c = false := dropWhile_head_false hd
    have hh := trimRight_head r hc
    have hnall : ¬ line.all isSpaceChar = true := by
      intro hall
      have hnil : line.dropWhile isSpaceChar = [] :=
        List.dropWhile_eq_nil_iff.mpr (fun x hx => List.all_eq_true.mp hall x hx)
      rw [hd] at hnil
      exact List.cons_ne_nil c r hnil
    cases htr : trimRight (c :: r) with
    | nil => rw [htr] at hh; simp at hh
    | cons x xs =>
      rw [htr] at hh
      simp only [List.head?_cons, Option.some.injEq] at hh
      subst hh
      simp [hnall]

/-- C4: the fully-commented filter returns true exactly when every line of
the content is whitespace-only or begins, after trimming leading whitespace,
with a `%`; content with every line a comment is discarded, content with one
uncommented non-blank line is kept. -/
theorem c4_commented_out_characterization :
    (∀ content : String, is_commented_out content = true ↔
      ∀ line ∈ splitLines content.data,
        line.all isSpaceChar = true ∨
          (line.dropWhile isSpaceChar).head? = some '%') ∧
    is_commented_out "% a\n  % b\n" = true ∧
    is_commented_out "% a\nx = 1\n% b" = false := by
  refine ⟨?_, by decide, by decide⟩
  intro content
  unfold is_commented_out
  rw [List.all_eq_true]
  constructor
  · intro h line hl
    exact (commented_line_iff line).mp (h line hl)
  · intro h line hl
    exact (commented_line_iff line).mpr (h line hl)

/-- C4 witness: the characterization applied at a concrete fully-commented
content. -/
theorem c4_commented_out_characterization_witness :
    is_commented_out "%x\n  %y" = true :=
  (c4_commented_out_characterization.1 "%x\n  %y").mpr (by decide)

/-! ## C10: default equation_types -/

/-- C10: calling `extract_latex_equations` with `equation_types = None` is
the same as calling it with `['all']`: the defaulting step substitutes
`['all']`, so the two calls run identically over all three categories. -/
theorem c10_none_equiv_all (s : String) :
    extract_latex_equations s none = extract_latex_equations s (some ["all"]) := rfl

/-! ## C2: the accumulated-preamble argument is dead -/

/-- C2: `process_tex_file` ignores the carried-in accumulated preamble: its
entire result (returned preamble and all rendering hand-offs) is the same for
any two values of the `preamble` parameter; the returned string is always the
file's own extracted preamble statements joined by newlines, and that same
string is the preamble handed to every rendering call. -/
theorem c2_preamble_independence :
    (∀ (doc outdir p1 p2 : String) (d : Nat) (types : Option (List String)),
      process_tex_file doc outdir p1 d types =
        process_tex_file doc outdir p2 d types) ∧
    (∀ (doc outdir p : String) (d : Nat) (types : Option (List String)),
      (process_tex_file doc outdir p d types).1 =
        String.intercalate "\n" (extract_preamble doc)) ∧
    (∀ (doc outdir p : String) (d : Nat) (types : Option (List String)),
      ∀ call ∈ (process_tex_file doc outdir p d types).2,
        call.usedPreamble = String.intercalate "\n" (extract_preamble doc)) := by
  refine ⟨fun doc outdir p1 p2 d types => rfl, fun doc outdir p d types => rfl, ?_⟩
  intro doc outdir p d types call hc
  obtain ⟨a, _, rfl⟩ := List.mem_map.mp hc
  rfl

/-- C2 witness: the rendering-call part of `c2_preamble_independence` applied
to a concrete document, at a stale accumulator value `OLD`. -/
theorem c2_preamble_independence_witness :
    (⟨"$x$", "\\usepackage\x7ba\x7d", 300, "out/equation_1.png"⟩ : RenderCall).usedPreamble =
      String.intercalate "\n" (extract_preamble "$x$ \\usepackage\x7ba\x7d") :=
  c2_preamble_independence.2.2 "$x$ \\usepackage\x7ba\x7d" "out" "OLD" 300 none
    ⟨"$x$", "\\usepackage\x7ba\x7d", 300, "out/equation_1.png"⟩ (by decide)

/-! ## C7: label extraction -/

lemma takeUntilBrace_some : ∀ {l mid : List Char}, takeUntilBrace l = some mid →
    ∃ post, l = mid ++ '\x7d' :: post ∧ '\n' ∉ mid ∧ '\x7d' ∉ mid := by
  intro l
  induction l with
  | nil => intro mid h; simp [takeUntilBrace] at h
  | cons c rest ih =>
    intro mid h
    by_cases h1 : c = '\x7d'
    · subst h1
      rw [show takeUntilBrace ('\x7d' :: rest) = some [] from rfl] at h
      obtain rfl : mid = [] := by simpa using h.symm
      exact ⟨rest, rfl, by simp, by simp⟩
    · by_cases h2 : c = '\n'
      · subst h2
        simp [takeUntilBrace, h1] at h
      · simp only [takeUntilBrace, if_neg h1, if_neg h2, Option.map_eq_some'] at h
        obtain ⟨mid2, hm, rfl⟩ := h
        obtain ⟨post, hp, hn, hb⟩ := ih hm
        refine ⟨post, by rw [hp]; rfl, ?_, ?_⟩
        · simp only [List.mem_cons, not_or]
          exact ⟨fun hh => h2 hh.symm, hn⟩
        · simp only [List.mem_cons, not_or]
          exact ⟨fun hh => h1 hh.symm, hb⟩

lemma takeUntilBrace_exact : ∀ {mid : List Char} (post : List Char),
    '\x7d' ∉ mid → '\n' ∉ mid →
    takeUntilBrace (mid ++ '\x7d' :: post) = some mid := by
  intro mid
  induction mid with
  | nil => intro post _ _; simp [takeUntilBrace]
  | cons c t ih =>
    intro post hb hn
    have h1 : ¬ c = '\x7d' := fun h => hb (List.mem_cons.mpr (Or.inl h.symm))
    have h2 : ¬ c = '\n' := fun h => hn (List.mem_cons.mpr (Or.inl h.symm))
    have ih2 := ih post (fun hh => hb (List.mem_cons_of_mem _ hh))
      (fun hh => hn (List.mem_cons_of_mem _ hh))
    simp only [List.cons_append, takeUntilBrace, if_neg h1, if_neg h2,
      List.append_eq, ih2, Option.map_some']

lemma findLabel_cons (c : Char) (rest : List Char) :
    findLabel (c :: rest) =
      match dropPrefixCh labelLit (c :: rest) with
      | some r =>
        match takeUntilBrace r with
        | some mid => some mid
        | none => findLabel rest
      | none => findLabel rest := rfl

lemma findLabel_some : ∀ {l mid : List Char}, findLabel l = some mid →
    ∃ pre post, l = pre ++ labelLit ++ mid ++ '\x7d' :: post ∧
      '\n' ∉ mid ∧ '\x7d' ∉ mid := by
  intro l
  induction l with
  | nil => intro mid h; simp [findLabel] at h
  | cons c rest ih =>
    intro mid h
    rw [findLabel_cons] at h
    cases hp : dropPrefixCh labelLit (c :: rest) with
    | some r =>
      simp only [hp] at h
      cases ht : takeUntilBrace r with
      | some mid2 =>
        simp only [ht, Option.some.injEq] at h
        subst h
        obtain ⟨post, hr, hn, hb⟩ := takeUntilBrace_some ht
        refine ⟨[], post, ?_, hn, hb⟩
        rw [dropPrefixCh_some hp, hr]
        simp
      | none =>
        simp only [ht] at h
        obtain ⟨pre2, post, hdec, hn, hb⟩ := ih h
        exact ⟨c :: pre2, post, by simp [hdec], hn, hb⟩
    | none =>
      simp only [hp] at h
      obtain ⟨pre2, post, hdec, hn, hb⟩ := ih h
      exact ⟨c :: pre2, post, by simp [hdec], hn, hb⟩

lemma findLabel_of_decomp : ∀ (pre : List Char) {mid : List Char} (post : List Char),
    '\n' ∉ mid → '\x7d' ∉ mid →
    findLabel (pre ++ labelLit ++ mid ++ '\x7d' :: post) ≠ none := by
  intro pre
  induction pre with
  | nil =>
    intro mid post hn hb
    have hcons : ([] : List Char) ++ labelLit ++ mid ++ '\x7d' :: post =
        '\\' :: ('l' :: 'a' :: 'b' :: 'e' :: 'l' :: '\x7b' :: (mid ++ '\x7d' :: post)) := by
      simp [labelLit]
    rw [hcons, findLabel_cons]
    have hdp : dropPrefixCh labelLit
        ('\\' :: 'l' :: 'a' :: 'b' :: 'e' :: 'l' :: '\x7b' :: (mid ++ '\x7d' :: post)) =
        some (mid ++ '\x7d' :: post) := dropPrefixCh_append labelLit _
    simp only [hdp, takeUntilBrace_exact post hb hn]
    simp
  | cons c pre2 ih =>
    intro mid post hn hb
    have ih2 := ih post hn hb
    have hsh : (c :: pre2) ++ labelLit ++ mid ++ '\x7d' :: post =
        c :: (pre2 ++ labelLit ++ mid ++ '\x7d' :: post) := by simp
    rw [hsh, findLabel_cons]
    cases hp : dropPrefixCh labelLit
        (c :: (pre2 ++ labelLit ++ mid ++ '\x7d' :: post)) with
    | some r =>
      simp only [hp]
      cases ht : takeUntilBrace r with
      | some mid2 => simp [ht]
      | none => simp only [ht]; exact ih2
    | none =>
      simp only [hp]
      exact ih2

/-- C7: an equation containing `\label{eq:foo}` yields label `eq_foo` (the
colon replaced by an underscore); an equation containing `\label{}` yields
the empty-string label `some ""`, distinct from the no-label value `none`;
and `get_equation_label` returns `none` exactly when the text contains no
`\label{...}` construct (a `\label{` with a closing brace on the same line). -/
theorem c7_label_extraction :
    get_equation_label "x = y \\label\x7beq:foo\x7d" = some "eq_foo" ∧
    get_equation_label "\\label\x7b\x7d" = some "" ∧
    ∀ s : String, get_equation_label s = none ↔
      ¬ ∃ pre mid post, s.data = pre ++ labelLit ++ mid ++ '\x7d' :: post ∧
          '\n' ∉ mid ∧ '\x7d' ∉ mid := by
  refine ⟨by decide, by decide, ?_⟩
  intro s
  unfold get_equation_label
  rw [Option.map_eq_none']
  constructor
  · rintro hn ⟨pre, mid, post, hdec, hnl, hbr⟩
    exact findLabel_of_decomp pre post hnl hbr (hdec ▸ hn)
  · intro hne
    cases hf : findLabel s.data with
    | none => rfl
    | some mid =>
      obtain ⟨pre, post, hdec, hnl, hbr⟩ := findLabel_some hf
      exact absurd ⟨pre, mid, post, hdec, hnl, hbr⟩ hne

/-- C7 witness: the no-label direction of `c7_label_extraction` applied to a
concrete equation without any label construct. -/
theorem c7_label_extraction_witness :
    get_equation_label "x + y" = none :=
  (c7_label_extraction.2.2 "x + y").mpr (by
    rintro ⟨pre, mid, post, hdec, -, -⟩
    have hlen := congrArg List.length hdec
    simp [List.length_append, List.length_cons, labelLit] at hlen
    omega)

/-! ## C6: unnumbering -/

lemma tryNumberedMarker_non_backslash {kw : List Char} {c : Char} (rest : List Char)
    (hc : c ≠ '\\') : tryNumberedMarker kw (c :: rest) = none := by
  unfold tryNumberedMarker
  have hd : dropPrefixCh ('\\' :: (kw ++ ['\x7b'])) (c :: rest) = none := by
    simp only [dropPrefixCh, if_neg (Ne.symm hc)]
  simp [hd]

lemma subMarkerF_id_of_no_backslash (kw : List Char) :
    ∀ (fuel : Nat) (l : List Char), '\\' ∉ l → subMarkerF kw fuel l = l := by
  intro fuel
  induction fuel with
  | zero => intro l _; rfl
  | succ n ih =>
    intro l hl
    cases l with
    | nil => rfl
    | cons c rest =>
      have hc : c ≠ '\\' := fun h => hl (List.mem_cons.mpr (Or.inl h.symm))
      simp only [subMarkerF, tryNumberedMarker_non_backslash rest hc]
      rw [ih rest (fun hh => hl (List.mem_cons_of_mem _ hh))]

/-- C6: `post_process_equation` rewrites begin/end markers to starred forms
for exactly the six numbered environments, leaves `split` and `cases`
markers and backslash-free text unchanged, and the single extracted block
candidate of the spec's example unnumbers to the starred form. -/
theorem c6_post_process_unnumbering :
    (∀ e : String,
      e ∈ (["equation", "align", "gather", "multline", "flalign", "alignat"] :
          List String) →
        post_process_equation ("\\begin\x7b" ++ e ++ "\x7d") =
          "\\begin\x7b" ++ e ++ "*\x7d" ∧
        post_process_equation ("\\end\x7b" ++ e ++ "\x7d") =
          "\\end\x7b" ++ e ++ "*\x7d") ∧
    post_process_equation "\\begin\x7bsplit\x7dx\\end\x7bsplit\x7d" =
      "\\begin\x7bsplit\x7dx\\end\x7bsplit\x7d" ∧
    post_process_equation "\\begin\x7bcases\x7dx\\end\x7bcases\x7d" =
      "\\begin\x7bcases\x7dx\\end\x7bcases\x7d" ∧
    (∀ s : String, '\\' ∉ s.data → post_process_equation s = s) ∧
    extract_latex_equations "\\begin\x7bequation\x7d\nE=mc^2\n\\end\x7bequation\x7d"
        (some ["block"]) =
      ["\\begin\x7bequation\x7d\nE=mc^2\n\\end\x7bequation\x7d"] ∧
    post_process_equation "\\begin\x7bequation\x7d\nE=mc^2\n\\end\x7bequation\x7d" =
      "\\begin\x7bequation*\x7d\nE=mc^2\n\\end\x7bequation*\x7d" := by
  refine ⟨?_, by decide, by decide, ?_, by decide, by decide⟩
  · intro e he
    fin_cases he <;> exact ⟨by decide, by decide⟩
  · intro s hs
    simp only [post_process_equation]
    rw [subMarkerF_id_of_no_backslash beginKw _ _ hs,
        subMarkerF_id_of_no_backslash endKw _ _ hs]

/-- C6 witness: the general parts of `c6_post_process_unnumbering` applied
to the `align` environment and to a backslash-free equation body. -/
theorem c6_post_process_unnumbering_witness :
    post_process_equation "\\begin\x7balign\x7d" = "\\begin\x7balign*\x7d" ∧
    post_process_equation "E=mc^2" = "E=mc^2" :=
  ⟨(c6_post_process_unnumbering.1 "align" (by decide)).1,
   c6_post_process_unnumbering.2.2.2.1 "E=mc^2" (by decide)⟩

/-! ## C5: inline extraction -/

lemma lastOr_append (a : List Char) : ∀ (prev : Option Char) (b : List Char),
    lastOr prev (a ++ b) = lastOr (lastOr prev a) b := by
  induction a with
  | nil => intro prev b; rfl
  | cons c t ih =>
    intro prev b
    simp only [List.cons_append, lastOr]
    exact ih (some c) b

lemma lastOr_concat (prev : Option Char) (a : List Char) (c : Char) :
    lastOr prev (a ++ [c]) = some c := by
  rw [lastOr_append]
  rfl

lemma takeInline_some : ∀ {rest inner rest2 : List Char},
    takeInline rest = some (inner, rest2) →
    rest = inner ++ '$' :: rest2 ∧ inner ≠ [] ∧ '$' ∉ inner ∧
      rest2.head? ≠ some '$' := by
  intro rest inner rest2 h
  simp only [takeInline] at h
  cases hd : rest.dropWhile (fun c => c != '$') with
  | nil => rw [hd] at h; simp at h
  | cons c rest2a =>
    rw [hd] at h
    simp only [] at h
    by_cases h1 : (rest.takeWhile (fun c => c != '$')).isEmpty
    · simp [h1] at h
    · by_cases h2 : rest2a.head? = some '$'
      · simp [h1, h2] at h
      · simp only [h1, h2, if_neg, Bool.false_eq_true, if_false,
          Option.some.injEq, Prod.mk.injEq] at h
        obtain ⟨rfl, rfl⟩ := h
        have hc : c = '$' := by simpa using dropWhile_head_false hd
        subst hc
        refine ⟨?_, ?_, ?_, h2⟩
        · conv_lhs => rw [← List.takeWhile_append_dropWhile (p := fun c => c != '$') (l := rest)]
          rw [hd]
        · intro hemp
          rw [hemp] at h1
          exact h1 rfl
        · intro hmem
          have := List.mem_takeWhile_imp hmem
          simp at this

lemma inlineScanF_spec : ∀ (fuel : Nat) (prev : Option Char) (l full inner : List Char),
    (full, inner) ∈ inlineScanF fuel prev l →
    ∃ pre post, l = pre ++ full ++ post ∧ lastOr prev pre ≠ some '$' ∧
      post.head? ≠ some '$' ∧ full = '$' :: (inner ++ ['$']) ∧
      inner ≠ [] ∧ '$' ∉ inner := by
  intro fuel
  induction fuel with
  | zero => intro prev l full inner h; simp [inlineScanF] at h
  | succ n ih =>
    intro prev l full inner h
    cases l with
    | nil => simp [inlineScanF] at h
    | cons c rest =>
      simp only [inlineScanF] at h
      by_cases hg : c = '$' ∧ prev ≠ some '$'
      · rw [if_pos hg] at h
        cases ht : takeInline rest with
        | some p =>
          obtain ⟨inner0, rest2⟩ := p
          simp only [ht] at h
          obtain ⟨hrest, hne, hnotin, hhead⟩ := takeInline_some ht
          rcases List.mem_cons.mp h with heq | htail
          · obtain ⟨hfull, hinner⟩ := Prod.mk.injEq .. ▸ heq
            injection heq with hfull hinner
            subst hfull
            subst hinner
            refine ⟨[], rest2, ?_, ?_, hhead, by simp, hne, hnotin⟩
            · rw [List.nil_append, hg.1, hrest]
              simp
            · exact hg.2
          · obtain ⟨pre2, post, hl, hpre, hpost, hfull, hne2, hni⟩ :=
              ih (some '$') rest2 full inner htail
            refine ⟨('$' :: (inner0 ++ ['$'])) ++ pre2, post, ?_, ?_, hpost, hfull,
              hne2, hni⟩
            · rw [hg.1, hrest, hl]
              simp
            · rw [lastOr_append]
              have : lastOr prev ('$' :: (inner0 ++ ['$'])) = some '$' := by
                show lastOr (some '$') (inner0 ++ ['$']) = some '$'
                exact lastOr_concat _ _ _
              rw [this]
              exact hpre
        | none =>
          simp only [ht] at h
          obtain ⟨pre2, post, hl, hpre, hpost, hfull, hne2, hni⟩ :=
            ih (some c) rest full inner h
          exact ⟨c :: pre2, post, by rw [hl]; simp, hpre, hpost, hfull, hne2, hni⟩
      · rw [if_neg hg] at h
        obtain ⟨pre2, post, hl, hpre, hpost, hfull, hne2, hni⟩ :=
          ih (some c) rest full inner h
        exact ⟨c :: pre2, post, by rw [hl]; simp, hpre, hpost, hfull, hne2, hni⟩

/-- C5: extracting `$a$ and $b$` with category `inline` yields exactly the
two candidates `$a$` and `$b$`; no inline candidate arises inside `$$x$$`;
and in general every inline match sits in the text with no `$` adjacent to
either delimiter (the character before the match and the character after it
are not `$`), with a `$`-free non-empty inner content. -/
theorem c5_inline_extraction :
    ("$a$" ∈ extract_latex_equations "$a$ and $b$" (some ["inline"]) ∧
     "$b$" ∈ extract_latex_equations "$a$ and $b$" (some ["inline"]) ∧
     (extract_latex_equations "$a$ and $b$" (some ["inline"])).length = 2) ∧
    extract_latex_equations "$$x$$" (some ["inline"]) = [] ∧
    ∀ (l full inner : List Char), (full, inner) ∈ inlineScanF l.length none l →
      ∃ pre post, l = pre ++ full ++ post ∧ lastOr none pre ≠ some '$' ∧
        post.head? ≠ some '$' ∧ full = '$' :: (inner ++ ['$']) ∧
        inner ≠ [] ∧ '$' ∉ inner := by
  refine ⟨⟨by decide, by decide, by decide⟩, by decide, ?_⟩
  intro l full inner h
  exact inlineScanF_spec l.length none l full inner h

/-- C5 witness: the adjacency property applied to the single match of the
concrete text `$a$`. -/
theorem c5_inline_extraction_witness :
    ∃ pre post, "$a$".data = pre ++ ['$', 'a', '$'] ++ post ∧
      lastOr none pre ≠ some '$' ∧ post.head? ≠ some '$' ∧
      ['$', 'a', '$'] = '$' :: (['a'] ++ ['$']) ∧
      (['a'] : List Char) ≠ [] ∧ '$' ∉ (['a'] : List Char) :=
  c5_inline_extraction.2.2 "$a$".data ['$', 'a', '$'] ['a'] (by decide)

/-! ## C9: round-trip between candidates and filtered inner content -/

lemma getLast?_append_right (a : List Char) {b : List Char} {d : Char}
    (h : b.getLast? = some d) : (a ++ b).getLast? = some d := by
  rw [← List.head?_reverse] at h
  rw [← List.head?_reverse, List.reverse_append]
  cases hb : b.reverse with
  | nil => rw [hb] at h; simp at h
  | cons x t =>
    rw [hb] at h
    simpa using h

lemma getLast?_cons_right {b : List Char} {d : Char} (c : Char)
    (h : b.getLast? = some d) : (c :: b).getLast? = some d := by
  cases b with
  | nil => simp at h
  | cons x t => rw [List.getLast?_cons_cons]; exact h

lemma firstEnvStar_some : ∀ {envs : List (List Char)} {l e : List Char}
    {st : Bool} {r : List Char},
    firstEnvStar envs l = some (e, st, r) →
    e ∈ envs ∧ l = e ++ (if st then ['*'] else []) ++ ['\x7d'] ++ r := by
  intro envs
  induction envs with
  | nil => intro l e st r h; simp [firstEnvStar] at h
  | cons e0 es ih =>
    intro l e st r h
    simp only [firstEnvStar] at h
    cases h1 : dropPrefixCh (e0 ++ ['*', '\x7d']) l with
    | some r1 =>
      simp only [h1, Option.some.injEq, Prod.mk.injEq] at h
      obtain ⟨rfl, rfl, rfl⟩ := h
      refine ⟨List.mem_cons_self _ _, ?_⟩
      rw [dropPrefixCh_some h1]
      simp
    | none =>
      simp only [h1] at h
      cases h2 : dropPrefixCh (e0 ++ ['\x7d']) l with
      | some r2 =>
        simp only [h2, Option.some.injEq, Prod.mk.injEq] at h
        obtain ⟨rfl, rfl, rfl⟩ := h
        refine ⟨List.mem_cons_self _ _, ?_⟩
        rw [dropPrefixCh_some h2]
        simp
      | none =>
        simp only [h2] at h
        obtain ⟨hm, hl⟩ := ih h
        exact ⟨List.mem_cons_of_mem _ hm, hl⟩

lemma dropEndTok_some : ∀ {e l : List Char} {st : Bool} {r : List Char},
    dropEndTok e l = some (st, r) →
    l = endLit ++ e ++ (if st then ['*'] else []) ++ ['\x7d'] ++ r := by
  intro e l st r h
  unfold dropEndTok at h
  split at h
  next r1 heq =>
    simp only [Option.some.injEq, Prod.mk.injEq] at h
    obtain ⟨rfl, rfl⟩ := h
    rw [dropPrefixCh_some heq]
    simp
  next heq =>
    split at h
    next r2 heq2 =>
      simp only [Option.some.injEq, Prod.mk.injEq] at h
      obtain ⟨rfl, rfl⟩ := h
      rw [dropPrefixCh_some heq2]
      simp
    next => simp at h

lemma findEndSeg_some : ∀ {l e inner : List Char} {st : Bool} {r : List Char},
    findEndSeg e l = some (inner, st, r) →
    l = inner ++ endLit ++ e ++ (if st then ['*'] else []) ++ ['\x7d'] ++ r := by
  intro l
  induction l with
  | nil => intro e inner st r h; simp [findEndSeg] at h
  | cons c rest ih =>
    intro e inner st r h
    simp only [findEndSeg] at h
    cases h1 : dropEndTok e (c :: rest) with
    | some p =>
      obtain ⟨st1, r1⟩ := p
      simp only [h1, Option.some.injEq, Prod.mk.injEq] at h
      obtain ⟨rfl, rfl, rfl⟩ := h
      simpa using dropEndTok_some h1
    | none =>
      simp only [h1, Option.map_eq_some'] at h
      obtain ⟨⟨inner2, st2, r2⟩, hm, heq⟩ := h
      simp only [Prod.mk.injEq] at heq
      obtain ⟨rfl, rfl, rfl⟩ := heq
      simp [ih hm]

lemma tryBlockMatch_some : ∀ {l full inner r : List Char},
    tryBlockMatch l = some ((full, inner), r) →
    l = full ++ r ∧ ∃ (e : List Char) (st1 st2 : Bool), e ∈ envNames ∧
      full = beginLit ++ e ++ (if st1 then ['*'] else []) ++ ['\x7d'] ++ inner
        ++ endLit ++ e ++ (if st2 then ['*'] else []) ++ ['\x7d'] := by
  intro l full inner r h
  unfold tryBlockMatch at h
  cases h1 : dropPrefixCh beginLit l with
  | none => simp [h1] at h
  | some l2 =>
    simp only [h1] at h
    cases h2 : firstEnvStar envNames l2 with
    | none => simp [h2] at h
    | some t =>
      obtain ⟨e, st1, l3⟩ := t
      simp only [h2] at h
      cases h3 : findEndSeg e l3 with
      | none => simp [h3] at h
      | some q =>
        obtain ⟨inner1, st2, rest1⟩ := q
        simp only [h3, Option.some.injEq, Prod.mk.injEq] at h
        obtain ⟨⟨hfull, rfl⟩, rfl⟩ := h
        obtain ⟨hmem, hl2⟩ := firstEnvStar_some h2
        have hl3 := findEndSeg_some h3
        subst hfull
        constructor
        · rw [dropPrefixCh_some h1, hl2, hl3]
          simp
        · exact ⟨e, st1, st2, hmem, rfl⟩

lemma blockScanF_mem : ∀ (fuel : Nat) (l full inner : List Char),
    (full, inner) ∈ blockScanF fuel l →
    (∃ pre post, l = pre ++ full ++ post) ∧
    ∃ (e : List Char) (st1 st2 : Bool), e ∈ envNames ∧
      full = beginLit ++ e ++ (if st1 then ['*'] else []) ++ ['\x7d'] ++ inner
        ++ endLit ++ e ++ (if st2 then ['*'] else []) ++ ['\x7d'] := by
  intro fuel
  induction fuel with
  | zero => intro l full inner h; simp [blockScanF] at h
  | succ n ih =>
    intro l full inner h
    cases l with
    | nil => simp [blockScanF] at h
    | cons c rest =>
      simp only [blockScanF] at h
      cases hm : tryBlockMatch (c :: rest) with
      | some p =>
        obtain ⟨⟨full1, inner1⟩, r1⟩ := p
        simp only [hm] at h
        rcases List.mem_cons.mp h with heq | htail
        · simp only [Prod.mk.injEq] at heq
          obtain ⟨rfl, rfl⟩ := heq
          obtain ⟨hspan, hshape⟩ := tryBlockMatch_some hm
          exact ⟨⟨[], r1, by simpa using hspan⟩, hshape⟩
        · obtain ⟨⟨pre2, post, hl⟩, hshape⟩ := ih r1 full inner htail
          have hspan := (tryBlockMatch_some hm).1
          exact ⟨⟨full1 ++ pre2, post, by rw [hspan, hl]; simp⟩, hshape⟩
      | none =>
        simp only [hm] at h
        obtain ⟨⟨pre2, post, hl⟩, hshape⟩ := ih rest full inner h
        exact ⟨⟨c :: pre2, post, by rw [hl]; simp⟩, hshape⟩

lemma findDD_some : ∀ {l i r : List Char}, findDD l = some (i, r) →
    l = i ++ '$' :: '$' :: r := by
  intro l
  induction l with
  | nil => intro i r h; simp [findDD] at h
  | cons c rest ih =>
    intro i r h
    simp only [findDD] at h
    by_cases hc : c = '$' ∧ rest.head? = some '$'
    · rw [if_pos hc] at h
      simp only [Option.some.injEq, Prod.mk.injEq] at h
      obtain ⟨rfl, rfl⟩ := h
      cases rest with
      | nil => simp at hc
      | cons c2 t =>
        obtain rfl : c2 = '$' := by simpa using hc.2
        rw [hc.1]
        rfl
    · rw [if_neg hc] at h
      simp only [Option.map_eq_some'] at h
      obtain ⟨⟨i2, r2⟩, hm, heq⟩ := h
      simp only [Prod.mk.injEq] at heq
      obtain ⟨rfl, rfl⟩ := heq
      simp [ih hm]

lemma tryDisplayMatch_some : ∀ {l full inner r : List Char},
    tryDisplayMatch l = some ((full, inner), r) →
    l = full ++ r ∧ full = '$' :: '$' :: (inner ++ ['$', '$']) := by
  intro l full inner r h
  cases l with
  | nil => simp [tryDisplayMatch] at h
  | cons c1 l1 =>
    cases l1 with
    | nil => simp [tryDisplayMatch] at h
    | cons c2 rest =>
      simp only [tryDisplayMatch] at h
      by_cases hc : c1 = '$' ∧ c2 = '$'
      · rw [if_pos hc] at h
        simp only [Option.map_eq_some'] at h
        obtain ⟨⟨i2, r2⟩, hm, heq⟩ := h
        simp only [Prod.mk.injEq] at heq
        obtain ⟨⟨rfl, rfl⟩, rfl⟩ := heq
        obtain ⟨rfl, rfl⟩ := hc
        constructor
        · rw [findDD_some hm]
          simp
        · rfl
      · rw [if_neg hc] at h
        simp at h

lemma displayScanF_mem : ∀ (fuel : Nat) (l full inner : List Char),
    (full, inner) ∈ displayScanF fuel l →
    (∃ pre post, l = pre ++ full ++ post) ∧
    full = '$' :: '$' :: (inner ++ ['$', '$']) := by
  intro fuel
  induction fuel with
  | zero => intro l full inner h; simp [displayScanF] at h
  | succ n ih =>
    intro l full inner h
    cases l with
    | nil => simp [displayScanF] at h
    | cons c rest =>
      simp only [displayScanF] at h
      cases hm : tryDisplayMatch (c :: rest) with
      | some p =>
        obtain ⟨⟨full1, inner1⟩, r1⟩ := p
        simp only [hm] at h
        rcases List.mem_cons.mp h with heq | htail
        · simp only [Prod.mk.injEq] at heq
          obtain ⟨rfl, rfl⟩ := heq
          obtain ⟨hspan, hshape⟩ := tryDisplayMatch_some hm
          exact ⟨⟨[], r1, by simpa using hspan⟩, hshape⟩
        · obtain ⟨⟨pre2, post, hl⟩, hshape⟩ := ih r1 full inner htail
          have hspan := (tryDisplayMatch_some hm).1
          exact ⟨⟨full1 ++ pre2, post, by rw [hspan, hl]; simp⟩, hshape⟩
      | none =>
        simp only [hm] at h
        obtain ⟨⟨pre2, post, hl⟩, hshape⟩ := ih rest full inner h
        exact ⟨⟨c :: pre2, post, by rw [hl]; simp⟩, hshape⟩

lemma filteredCands_mem : ∀ {ms : List (List Char × List Char)} {s : String},
    s ∈ filteredCands ms → ∃ m ∈ ms,
      is_purely_numeric_content ⟨m.2⟩ = false ∧
      is_commented_out ⟨m.2⟩ = false ∧ s = ⟨pyStrip m.1⟩ := by
  intro ms s h
  unfold filteredCands at h
  obtain ⟨m, hm, hf⟩ := List.mem_filterMap.mp h
  by_cases h1 : is_purely_numeric_content ⟨m.2⟩
  · simp [h1] at hf
  · by_cases h2 : is_commented_out ⟨m.2⟩
    · simp [h1, h2] at hf
    · simp only [h1, h2, Bool.false_eq_true, if_false, Option.some.injEq] at hf
      exact ⟨m, hm, Bool.eq_false_iff.mpr h1, Bool.eq_false_iff.mpr h2, hf.symm⟩

lemma mem_ite_nil {α : Type} {b : Prop} [Decidable b] {l : List α} {x : α}
    (h : x ∈ if b then l else []) : x ∈ l := by
  split at h
  · exact h
  · simp at h

/-- C9: every candidate returned by `extract_latex_equations` is a verbatim
span of the input that carries its delimiters intact: stripping those
delimiters (environment markers, `$$` pair, or `$` pair, according to the
matched shape) recovers exactly the inner content on which the two content
filters were evaluated (and found false). -/
theorem c9_round_trip (s : String) (types : Option (List String)) (eq : String)
    (h : eq ∈ extract_latex_equations s types) :
    ∃ inner : List Char,
      is_purely_numeric_content ⟨inner⟩ = false ∧
      is_commented_out ⟨inner⟩ = false ∧
      (∃ pre post, s.data = pre ++ eq.data ++ post) ∧
      ((∃ (e : List Char) (st1 st2 : Bool), e ∈ envNames ∧
          eq.data = beginLit ++ e ++ (if st1 then ['*'] else []) ++ ['\x7d'] ++ inner
            ++ endLit ++ e ++ (if st2 then ['*'] else []) ++ ['\x7d']) ∨
        eq.data = '$' :: '$' :: (inner ++ ['$', '$']) ∨
        eq.data = '$' :: (inner ++ ['$'])) := by
  simp only [extract_latex_equations] at h
  rw [List.mem_dedup] at h
  rcases List.mem_append.mp h with hBD | hI
  · rcases List.mem_append.mp hBD with hB | hD
    · have hB2 := mem_ite_nil hB
      obtain ⟨m, hm, hf1, hf2, heq⟩ := filteredCands_mem hB2
      obtain ⟨full, inner⟩ := m
      obtain ⟨⟨pre, post, hspan⟩, e, st1, st2, hmem, hshape⟩ :=
        blockScanF_mem s.data.length s.data full inner hm
      have hps : pyStrip full = full := by
        rw [hshape]
        refine pyStrip_eq_self (c := '\\') (d := '\x7d') rfl (by decide) ?_ (by decide)
        repeat (first | exact rfl | apply getLast?_cons_right | apply getLast?_append_right)
      subst heq
      have hdata : (⟨pyStrip full⟩ : String).data = full := by
        show pyStrip full = full
        exact hps
      refine ⟨inner, hf1, hf2, ⟨pre, post, ?_⟩, Or.inl ⟨e, st1, st2, hmem, ?_⟩⟩
      · rw [hdata]; exact hspan
      · rw [hdata]; exact hshape
    · have hD2 := mem_ite_nil hD
      obtain ⟨m, hm, hf1, hf2, heq⟩ := filteredCands_mem hD2
      obtain ⟨full, inner⟩ := m
      obtain ⟨⟨pre, post, hspan⟩, hshape⟩ :=
        displayScanF_mem s.data.length s.data full inner hm
      have hps : pyStrip full = full := by
        rw [hshape]
        refine pyStrip_eq_self (c := '$') (d := '$') rfl (by decide) ?_ (by decide)
        repeat (first | exact rfl | apply getLast?_cons_right | apply getLast?_append_right)
      subst heq
      have hdata : (⟨pyStrip full⟩ : String).data = full := by
        show pyStrip full = full
        exact hps
      refine ⟨inner, hf1, hf2, ⟨pre, post, ?_⟩, Or.inr (Or.inl ?_)⟩
      · rw [hdata]; exact hspan
      · rw [hdata]; exact hshape
  · have hI2 := mem_ite_nil hI
    obtain ⟨m, hm, hf1, hf2, heq⟩ := filteredCands_mem hI2
    obtain ⟨full, inner⟩ := m
    obtain ⟨pre, post, hspan, hpre, hpost, hshape, hne, hni⟩ :=
      inlineScanF_spec s.data.length none s.data full inner hm
    have hps : pyStrip full = full := by
      rw [hshape]
      refine pyStrip_eq_self (c := '$') (d := '$') rfl (by decide) ?_ (by decide)
      repeat (first | exact rfl | apply getLast?_cons_right | apply getLast?_append_right)
    subst heq
    have hdata : (⟨pyStrip full⟩ : String).data = full := by
      show pyStrip full = full
      exact hps
    refine ⟨inner, hf1, hf2, ⟨pre, post, ?_⟩, Or.inr (Or.inr ?_)⟩
    · rw [hdata]; exact hspan
    · rw [hdata]; exact hshape

/-- C9 witness: the round-trip applied to the inline candidate `$x$`
extracted from the document `$x$`. -/
theorem c9_round_trip_witness :
    ∃ inner : List Char,
      is_purely_numeric_content ⟨inner⟩ = false ∧
      is_commented_out ⟨inner⟩ = false ∧
      (∃ pre post, "$x$".data = pre ++ "$x$".data ++ post) ∧
      ((∃ (e : List Char) (st1 st2 : Bool), e ∈ envNames ∧
          "$x$".data = beginLit ++ e ++ (if st1 then ['*'] else []) ++ ['\x7d'] ++ inner
            ++ endLit ++ e ++ (if st2 then ['*'] else []) ++ ['\x7d']) ∨
        "$x$".data = '$' :: '$' :: (inner ++ ['$', '$']) ∨
        "$x$".data = '$' :: (inner ++ ['$'])) :=
  c9_round_trip "$x$" (some ["inline"]) "$x$" (by decide)

/-! ## C8: preamble extraction on simple statements -/

lemma takeToBrace_exact : ∀ {a : List Char} (r : List Char), '\x7d' ∉ a →
    takeToBrace (a ++ '\x7d' :: r) = some (a, r) := by
  intro a
  induction a with
  | nil => intro r _; simp [takeToBrace]
  | cons c t ih =>
    intro r hb
    have h1 : ¬ c = '\x7d' := fun h => hb (List.mem_cons.mpr (Or.inl h.symm))
    have ih2 := ih r (fun hh => hb (List.mem_cons_of_mem _ hh))
    simp only [List.cons_append, takeToBrace, if_neg h1, List.append_eq, ih2,
      Option.map_some']

lemma bracedExpr_exact {a : List Char} (r : List Char) (hb : '\x7d' ∉ a) :
    bracedExpr ('\x7b' :: (a ++ '\x7d' :: r)) =
      some ('\x7b' :: (a ++ ['\x7d']), r) := by
  simp only [bracedExpr, if_pos rfl, takeToBrace_exact r hb, Option.map_some']
  simp

lemma bracketScanK_exact (k : List Char → Option (List Char × List Char)) :
    ∀ {o : List Char} {tail : List Char} {b r : List Char}, ']' ∉ o →
    k tail = some (b, r) →
    bracketScanK k (o ++ ']' :: tail) = some (o, b, r) := by
  intro o
  induction o with
  | nil =>
    intro tail b r _ hk
    simp [bracketScanK, hk]
  | cons c t ih =>
    intro tail b r ho hk
    have h1 : ¬ c = ']' := fun h => ho (List.mem_cons.mpr (Or.inl h.symm))
    have ih2 := ih (fun hh => ho (List.mem_cons_of_mem _ hh)) hk
    simp only [List.cons_append, bracketScanK, if_neg h1, List.append_eq, ih2,
      Option.map_some']

lemma firstArgScan_exact : ∀ {a : List Char} {r : List Char} {b r2 : List Char},
    '\x7d' ∉ a → bracedExpr r = some (b, r2) →
    firstArgScan (a ++ '\x7d' :: r) = some (a, b, r2) := by
  intro a
  induction a with
  | nil =>
    intro r b r2 _ hk
    simp [firstArgScan, hk]
  | cons c t ih =>
    intro r b r2 ha hk
    have h1 : ¬ c = '\x7d' := fun h => ha (List.mem_cons.mpr (Or.inl h.symm))
    have ih2 := ih (fun hh => ha (List.mem_cons_of_mem _ hh)) hk
    simp only [List.cons_append, firstArgScan, if_neg h1, List.append_eq, ih2,
      Option.map_some']

lemma twoBraced_exact {a b : List Char} (rest : List Char)
    (ha : '\x7d' ∉ a) (hb : '\x7d' ∉ b) :
    twoBraced ('\x7b' :: (a ++ '\x7d' :: '\x7b' :: (b ++ '\x7d' :: rest))) =
      some ('\x7b' :: (a ++ '\x7d' :: '\x7b' :: (b ++ ['\x7d'])), rest) := by
  have hfa : firstArgScan (a ++ '\x7d' :: ('\x7b' :: (b ++ '\x7d' :: rest))) =
      some (a, '\x7b' :: (b ++ ['\x7d']), rest) :=
    firstArgScan_exact ha (bracedExpr_exact rest hb)
  simp only [twoBraced, if_pos rfl, hfa, Option.map_some']
  simp

lemma afterUsepackage_braced {pkg : List Char} (rest : List Char)
    (hb : '\x7d' ∉ pkg) :
    afterUsepackage ('\x7b' :: (pkg ++ '\x7d' :: rest)) =
      some ('\x7b' :: (pkg ++ ['\x7d']), rest) := by
  unfold afterUsepackage
  rw [if_neg (by simp)]
  exact bracedExpr_exact rest hb

lemma afterUsepackage_bracket {opts pkg : List Char} (rest : List Char)
    (ho : ']' ∉ opts) (hb : '\x7d' ∉ pkg) :
    afterUsepackage ('[' :: (opts ++ ']' :: '\x7b' :: (pkg ++ '\x7d' :: rest))) =
      some ('[' :: (opts ++ ']' :: '\x7b' :: (pkg ++ ['\x7d'])), rest) := by
  unfold afterUsepackage
  rw [if_pos (by simp)]
  have hbs : bracketScanK bracedExpr
      (opts ++ ']' :: ('\x7b' :: (pkg ++ '\x7d' :: rest))) =
      some (opts, '\x7b' :: (pkg ++ ['\x7d']), rest) :=
    bracketScanK_exact bracedExpr ho (bracedExpr_exact rest hb)
  simp only [List.tail_cons, hbs, Option.map_some']
  simp

lemma afterNewcommand_braced {a b : List Char} (rest : List Char)
    (ha : '\x7d' ∉ a) (hb : '\x7d' ∉ b) :
    afterNewcommand ('\x7b' :: (a ++ '\x7d' :: '\x7b' :: (b ++ '\x7d' :: rest))) =
      some ('\x7b' :: (a ++ '\x7d' :: '\x7b' :: (b ++ ['\x7d'])), rest) := by
  unfold afterNewcommand
  rw [if_neg (by simp)]
  exact twoBraced_exact rest ha hb

lemma afterNewcommand_bracket {n a b : List Char} (rest : List Char)
    (hn : ']' ∉ n) (ha : '\x7d' ∉ a) (hb : '\x7d' ∉ b) :
    afterNewcommand
        ('[' :: (n ++ ']' :: '\x7b' :: (a ++ '\x7d' :: '\x7b' :: (b ++ '\x7d' :: rest)))) =
      some ('[' :: (n ++ ']' :: '\x7b' :: (a ++ '\x7d' :: '\x7b' :: (b ++ ['\x7d']))), rest) := by
  unfold afterNewcommand
  rw [if_pos (by simp)]
  have hbs : bracketScanK twoBraced
      (n ++ ']' :: ('\x7b' :: (a ++ '\x7d' :: '\x7b' :: (b ++ '\x7d' :: rest)))) =
      some (n, '\x7b' :: (a ++ '\x7d' :: '\x7b' :: (b ++ ['\x7d'])), rest) :=
    bracketScanK_exact twoBraced hn (twoBraced_exact rest ha hb)
  simp only [List.tail_cons, hbs, Option.map_some']
  simp

lemma dropPrefixCh_use_renew (X : List Char) :
    dropPrefixCh usepackageLit (renewcommandLit ++ X) = none := by
  simp [usepackageLit, renewcommandLit, dropPrefixCh]

lemma dropPrefixCh_use_new (X : List Char) :
    dropPrefixCh usepackageLit (newcommandLit ++ X) = none := by
  simp [usepackageLit, newcommandLit, dropPrefixCh]

lemma dropPrefixCh_renew_new (X : List Char) :
    dropPrefixCh renewcommandLit (newcommandLit ++ X) = none := by
  simp [renewcommandLit, newcommandLit, dropPrefixCh]

lemma tryPreambleMatch_simple : ∀ {m : List Char}, SimpleStmt m →
    ∀ (rest : List Char), tryPreambleMatch (m ++ rest) = some (m, rest) := by
  intro m hm rest
  rcases hm with ⟨pkg, hf, hEq⟩ | ⟨opts, pkg, hf1, hf2, hEq⟩ |
    ⟨a, b, hf1, hf2, hEq⟩ | ⟨a, b, hf1, hf2, hEq⟩ | ⟨n, a, b, hf1, hf2, hf3, hEq⟩
  · subst hEq
    have hnorm : (usepackageLit ++ '\x7b' :: pkg ++ ['\x7d']) ++ rest =
        usepackageLit ++ ('\x7b' :: (pkg ++ '\x7d' :: rest)) := by simp
    rw [hnorm]
    simp only [tryPreambleMatch, dropPrefixCh_append,
      afterUsepackage_braced rest hf.2.1, Option.map_some']
    simp
  · subst hEq
    have hnorm : (usepackageLit ++ '[' :: opts ++ ']' :: '\x7b' :: pkg ++ ['\x7d']) ++ rest =
        usepackageLit ++ ('[' :: (opts ++ ']' :: '\x7b' :: (pkg ++ '\x7d' :: rest))) := by
      simp
    rw [hnorm]
    simp only [tryPreambleMatch, dropPrefixCh_append,
      afterUsepackage_bracket rest hf1.2.2.2 hf2.2.1, Option.map_some']
    simp
  · subst hEq
    have hnorm : (renewcommandLit ++ '\x7b' :: a ++ '\x7d' :: '\x7b' :: b ++ ['\x7d']) ++ rest =
        renewcommandLit ++ ('\x7b' :: (a ++ '\x7d' :: '\x7b' :: (b ++ '\x7d' :: rest))) := by
      simp
    rw [hnorm]
    simp only [tryPreambleMatch, dropPrefixCh_use_renew, dropPrefixCh_append,
      twoBraced_exact rest hf1.2.1 hf2.2.1, Option.map_some']
    simp
  · subst hEq
    have hnorm : (newcommandLit ++ '\x7b' :: a ++ '\x7d' :: '\x7b' :: b ++ ['\x7d']) ++ rest =
        newcommandLit ++ ('\x7b' :: (a ++ '\x7d' :: '\x7b' :: (b ++ '\x7d' :: rest))) := by
      simp
    rw [hnorm]
    simp only [tryPreambleMatch, dropPrefixCh_use_new, dropPrefixCh_renew_new,
      dropPrefixCh_append, afterNewcommand_braced rest hf1.2.1 hf2.2.1,
      Option.map_some']
    simp
  · subst hEq
    have hnorm :
        (newcommandLit ++ '[' :: n ++ ']' :: '\x7b' :: a ++ '\x7d' :: '\x7b' :: b ++ ['\x7d']) ++ rest =
        newcommandLit ++
          ('[' :: (n ++ ']' :: '\x7b' :: (a ++ '\x7d' :: '\x7b' :: (b ++ '\x7d' :: rest)))) := by
      simp
    rw [hnorm]
    simp only [tryPreambleMatch, dropPrefixCh_use_new, dropPrefixCh_renew_new,
      dropPrefixCh_append, afterNewcommand_bracket rest hf1.2.2.2 hf2.2.1 hf3.2.1,
      Option.map_some']
    simp

lemma tryPreambleMatch_no_backslash {c : Char} (rest : List Char) (hc : c ≠ '\\') :
    tryPreambleMatch (c :: rest) = none := by
  have h1 : dropPrefixCh usepackageLit (c :: rest) = none := by
    simp [usepackageLit, dropPrefixCh, Ne.symm hc]
  have h2 : dropPrefixCh renewcommandLit (c :: rest) = none := by
    simp [renewcommandLit, dropPrefixCh, Ne.symm hc]
  have h3 : dropPrefixCh newcommandLit (c :: rest) = none := by
    simp [newcommandLit, dropPrefixCh, Ne.symm hc]
  simp [tryPreambleMatch, h1, h2, h3]

lemma preambleScanF_no_backslash : ∀ (fuel : Nat) {l : List Char}, '\\' ∉ l →
    preambleScanF fuel l = [] := by
  intro fuel
  induction fuel with
  | zero => intro l _; rfl
  | succ num ih =>
    intro l hl
    cases l with
    | nil => rfl
    | cons c rest =>
      have hc : c ≠ '\\' := fun h => hl (List.mem_cons.mpr (Or.inl h.symm))
      simp only [preambleScanF, tryPreambleMatch_no_backslash rest hc]
      exact ih (fun hh => hl (List.mem_cons_of_mem _ hh))

lemma preambleScanF_gap : ∀ {g : List Char} (fuel : Nat) (rest : List Char),
    '\\' ∉ g → preambleScanF (g.length + fuel) (g ++ rest) = preambleScanF fuel rest := by
  intro g
  induction g with
  | nil => intro fuel rest _; simp
  | cons c t ih =>
    intro fuel rest hg
    have hc : c ≠ '\\' := fun h => hg (List.mem_cons.mpr (Or.inl h.symm))
    have hlen : (c :: t).length + fuel = (t.length + fuel) + 1 := by
      simp [List.length_cons]
      omega
    rw [hlen, List.cons_append]
    simp only [preambleScanF, tryPreambleMatch_no_backslash (t ++ rest) hc]
    exact ih fuel rest (fun hh => hg (List.mem_cons_of_mem _ hh))

lemma preambleScanF_mkDoc : ∀ (ps : List (List Char × List Char)) (g0 : List Char)
    (fuel : Nat), '\\' ∉ g0 → (∀ p ∈ ps, SimpleStmt p.1 ∧ '\\' ∉ p.2) →
    (mkPreambleDoc g0 ps).length ≤ fuel →
    preambleScanF fuel (mkPreambleDoc g0 ps) = ps.map Prod.fst := by
  intro ps
  induction ps with
  | nil =>
    intro g0 fuel h0 _ _
    exact preambleScanF_no_backslash fuel h0
  | cons q qs ih =>
    intro g0 fuel h0 hps hfuel
    obtain ⟨m, g⟩ := q
    have hm : SimpleStmt m := (hps (m, g) (List.mem_cons_self _ _)).1
    have hg : '\\' ∉ g := (hps (m, g) (List.mem_cons_self _ _)).2
    have hdoc : mkPreambleDoc g0 ((m, g) :: qs) =
        g0 ++ (m ++ mkPreambleDoc g qs) := by
      simp [mkPreambleDoc]
    rw [hdoc] at hfuel ⊢
    simp only [List.length_append] at hfuel
    have hfe : fuel = g0.length + (fuel - g0.length) := by omega
    rw [hfe, preambleScanF_gap (fuel - g0.length) _ h0]
    cases hmm : m with
    | nil =>
      exfalso
      rcases hm with ⟨pkg, hf, hEq⟩ | ⟨opts, pkg, hf1, hf2, hEq⟩ |
        ⟨a, b, hf1, hf2, hEq⟩ | ⟨a, b, hf1, hf2, hEq⟩ | ⟨n, a, b, hf1, hf2, hf3, hEq⟩ <;>
        rw [hmm] at hEq <;>
        simp [usepackageLit, renewcommandLit, newcommandLit] at hEq
    | cons mh mt =>
      have hfuel2 : fuel - g0.length = (mt.length + (fuel - g0.length - m.length)) + 1 := by
        have hml : m.length = mt.length + 1 := by rw [hmm]; simp
      
        omega
      rw [hfuel2, List.cons_append]
      have htp : tryPreambleMatch (mh :: (mt ++ mkPreambleDoc g qs)) =
          some (mh :: mt, mkPreambleDoc g qs) := by
        rw [← List.cons_append, ← hmm]
        exact tryPreambleMatch_simple hm _
      simp only [preambleScanF, htp]
      rw [← hmm]
      have hih : preambleScanF (mt.length + (fuel - g0.length - m.length))
          (mkPreambleDoc g qs) = qs.map Prod.fst := by
        apply ih g _ hg (fun p hp => hps p (List.mem_cons_of_mem _ hp))
        have hml : m.length = mt.length + 1 := by rw [hmm]; simp
        omega
      rw [hih]
      simp

lemma simpleStmt_pyStrip {m : List Char} (hm : SimpleStmt m) : pyStrip m = m := by
  rcases hm with ⟨pkg, hf, hEq⟩ | ⟨opts, pkg, hf1, hf2, hEq⟩ |
    ⟨a, b, hf1, hf2, hEq⟩ | ⟨a, b, hf1, hf2, hEq⟩ | ⟨n, a, b, hf1, hf2, hf3, hEq⟩ <;>
    subst hEq <;>
    refine pyStrip_eq_self (c := '\\') (d := '\x7d') rfl (by decide) ?_ (by decide) <;>
    (repeat (first | exact rfl | apply getLast?_cons_right | apply getLast?_append_right))

lemma mkPreambleDoc_substring : ∀ (ps : List (List Char × List Char)) (g0 : List Char),
    ∀ p ∈ ps, ∃ pre post, mkPreambleDoc g0 ps = pre ++ p.1 ++ post := by
  intro ps
  induction ps with
  | nil => intro g0 p hp; simp at hp
  | cons q qs ih =>
    intro g0 p hp
    obtain ⟨m, g⟩ := q
    rcases List.mem_cons.mp hp with rfl | hp2
    · exact ⟨g0, mkPreambleDoc g qs, by simp [mkPreambleDoc]⟩
    · obtain ⟨pre, post, hd⟩ := ih g p hp2
      exact ⟨g0 ++ m ++ pre, post, by simp [mkPreambleDoc, hd]⟩

/-- C8: for a document made of backslash-free gaps around any number of
distinct syntactically-simple (bracket-free-argument) preamble statements,
`extract_preamble` returns exactly those statements: one string per
statement, pairwise distinct, trimmed (trivially, as each statement starts
with a backslash and ends with a brace), and each a verbatim substring of
the document. -/
theorem c8_simple_preamble_extraction (g0 : List Char)
    (ps : List (List Char × List Char)) (h0 : '\\' ∉ g0)
    (hps : ∀ p ∈ ps, SimpleStmt p.1 ∧ '\\' ∉ p.2)
    (hnd : (ps.map Prod.fst).Nodup) :
    extract_preamble ⟨mkPreambleDoc g0 ps⟩ = ps.map (fun p => (⟨p.1⟩ : String)) ∧
    (extract_preamble ⟨mkPreambleDoc g0 ps⟩).length = ps.length ∧
    (extract_preamble ⟨mkPreambleDoc g0 ps⟩).Nodup ∧
    ∀ p ∈ ps, ∃ pre post, mkPreambleDoc g0 ps = pre ++ p.1 ++ post := by
  have hscan := preambleScanF_mkDoc ps g0 (mkPreambleDoc g0 ps).length h0 hps le_rfl
  have hnd2 : (ps.map (fun p => (⟨p.1⟩ : String))).Nodup := by
    have hcomp : ps.map (fun p => (⟨p.1⟩ : String)) =
        (ps.map Prod.fst).map (fun m => (⟨m⟩ : String)) := by
      rw [List.map_map]
      rfl
    rw [hcomp]
    exact hnd.map (fun a b hab => congrArg String.data hab)
  have hmain : extract_preamble ⟨mkPreambleDoc g0 ps⟩ =
      ps.map (fun p => (⟨p.1⟩ : String)) := by
    unfold extract_preamble
    rw [show (⟨mkPreambleDoc g0 ps⟩ : String).data = mkPreambleDoc g0 ps from rfl]
    rw [hscan]
    show (List.map (fun m => (⟨pyStrip m⟩ : String)) (List.map Prod.fst ps)).dedup =
      List.map (fun p => (⟨p.1⟩ : String)) ps
    rw [List.map_map]
    have hmap : ps.map ((fun m => (⟨pyStrip m⟩ : String)) ∘ Prod.fst) =
        ps.map (fun p => (⟨p.1⟩ : String)) := by
      apply List.map_congr_left
      intro p hp
      simp only [Function.comp_apply]
      rw [simpleStmt_pyStrip (hps p hp).1]
    rw [hmap]
    exact List.Nodup.dedup hnd2
  refine ⟨hmain, ?_, ?_, mkPreambleDoc_substring ps g0⟩
  · rw [hmain]
    simp
  · rw [hmain]
    exact hnd2

/-- C8 witness: the extraction property applied to a concrete document with
two distinct simple statements separated by backslash-free gaps. -/
theorem c8_simple_preamble_extraction_witness :
    extract_preamble ⟨mkPreambleDoc ['t', ' ']
        [("\\usepackage\x7bamsmath\x7d".data, [' ']),
         ("\\renewcommand\x7ba\x7d\x7bb\x7d".data, [])]⟩ =
      [("\\usepackage\x7bamsmath\x7d".data, ([' '] : List Char)),
       ("\\renewcommand\x7ba\x7d\x7bb\x7d".data, ([] : List Char))].map
        (fun p => (⟨p.1⟩ : String)) ∧
    (extract_preamble ⟨mkPreambleDoc ['t', ' ']
        [("\\usepackage\x7bamsmath\x7d".data, [' ']),
         ("\\renewcommand\x7ba\x7d\x7bb\x7d".data, [])]⟩).length =
      ([("\\usepackage\x7bamsmath\x7d".data, ([' '] : List Char)),
        ("\\renewcommand\x7ba\x7d\x7bb\x7d".data, ([] : List Char))]).length ∧
    (extract_preamble ⟨mkPreambleDoc ['t', ' ']
        [("\\usepackage\x7bamsmath\x7d".data, [' ']),
         ("\\renewcommand\x7ba\x7d\x7bb\x7d".data, [])]⟩).Nodup ∧
    ∀ p ∈ [("\\usepackage\x7bamsmath\x7d".data, ([' '] : List Char)),
           ("\\renewcommand\x7ba\x7d\x7bb\x7d".data, ([] : List Char))],
      ∃ pre post, mkPreambleDoc ['t', ' ']
        [("\\usepackage\x7bamsmath\x7d".data, [' ']),
         ("\\renewcommand\x7ba\x7d\x7bb\x7d".data, [])] = pre ++ p.1 ++ post :=
  c8_simple_preamble_extraction ['t', ' ']
    [("\\usepackage\x7bamsmath\x7d".data, [' ']),
     ("\\renewcommand\x7ba\x7d\x7bb\x7d".data, [])]
    (by decide)
    (by
      intro p hp
      fin_cases hp
      · exact ⟨Or.inl ⟨"amsmath".data,
          ⟨by decide, by decide, by decide, by decide⟩, by decide⟩, by decide⟩
      · exact ⟨Or.inr (Or.inr (Or.inl ⟨"a".data, "b".data,
          ⟨by decide, by decide, by decide, by decide⟩,
          ⟨by decide, by decide, by decide, by decide⟩, by decide⟩)), by decide⟩)
    (by decide)

/-- C1 witness: the amended characterization applied at a concrete purely
numeric content. -/
theorem c1_amended_witness : is_purely_numeric_content "42.0" = true :=
  (c1_amended "42.0").mpr ⟨by decide, by decide⟩
